import Mathlib

/-!
Verification of the LESS variable-hint engine (`main.js`).

The engine scans a stylesheet document for variable declarations
`@name: value`, filters them by the text typed since the hint session
started, sorts them case-insensitively and offers them as completions.
This file gives a shallow embedding of the engine's functions
(`hasHints`, `getHints`, `validPosition`, `getAll`, `filterHints`,
`processHints`, `insertHint`) and proves properties about them.

Strings are modelled through their character lists; the host editor's
document is a list of lines; positions are `line`/`ch` pairs as in the
host API.
-/

namespace LESSHint

/-- A cursor position in the host document: `{line, ch}`. -/
structure Pos where
  line : Nat
  ch : Nat
  deriving DecidableEq, Repr

/-- One regex match of `@([\w\-]+)\s*:\s*([^\n;]+)`: `name` is capture
group 1 (`match[1]`), `value` is capture group 2 (`match[2]`). -/
structure VarMatch where
  name : String
  value : String
  deriving DecidableEq, Repr

/-- The mutable fields of the `LESSHint` object that form the session
state: `this.startPos`, `this.writtenSinceStart`, `this.hints`,
`this.hintsHTML`. -/
structure HintState where
  startPos : Pos
  writtenSinceStart : String
  hints : List String
  hintsHTML : List String
  deriving DecidableEq, Repr

/-- A `document.replaceRange(text, start, stop)` call issued by the
engine.  `text = none` models the JavaScript `undefined` value, which
`insertHint` passes when the chosen hint is looked up at index `-1`. -/
structure ReplaceReq where
  text : Option String
  start : Pos
  stop : Pos
  deriving DecidableEq, Repr

/-- The whitespace characters matched by the regex class `\s`
(ASCII forms: space, tab, newline, carriage return, vertical tab,
form feed). -/
def jsSpace (c : Char) : Bool :=
  c == ' ' || c == '\t' || c == '\n' || c == '\r' || c == '\x0b' || c == '\x0c'

/-- The regex class `\w`: ASCII letters, digits and underscore. -/
def wordChar (c : Char) : Bool :=
  c.isAlpha || c.isDigit || c == '_'

/-- The regex class `[\w\-]` used for variable names in
`this.regex = /@([\w\-]+)\s*:\s*([^\n;]+)/ig`. -/
def nameChar (c : Char) : Bool :=
  wordChar c || c == '-'

/-- The regex class `[^\n;]` used for declaration values. -/
def valueChar (c : Char) : Bool :=
  c != '\n' && c != ';'

/-- `this.chars = /[@\w\-]/i` applied with `.test(s)`: true when some
character of `s` is the sigil, a letter, a digit, an underscore or a
hyphen (the `i` flag is irrelevant, the class is closed under case). -/
def charsTest (s : String) : Bool :=
  s.data.any (fun c => c == '@' || nameChar c)

/-- Splits a character list at its last element that is not `'\n'`:
`backSplit l = some (p, x, s)` with `l = p ++ x :: s`, `x ≠ '\n'` and
`s` all newlines.  Used to model the regex backtracking of `\s*` into
`([^\n;]+)` after the colon. -/
def backSplit : List Char → Option (List Char × Char × List Char)
  | [] => none
  | c :: cs =>
    match backSplit cs with
    | some (p, x, s) => some (c :: p, x, s)
    | none => if c != '\n' then some ([], c, cs) else none

/-- One attempt of `this.regex` at a position directly after a `'@'`:
name = `[\w\-]+` (greedy), then `\s*`, then `':'`, then `\s*`, then
value = `[^\n;]+` (greedy).  The character classes of name, `\s` and
`':'` are pairwise disjoint, so the only regex backtracking that can
occur is `\s*` after the colon handing back one trailing non-newline
whitespace character to the value when the value would otherwise be
empty; `backSplit` implements exactly that.  Returns the captured
groups and the remaining input after the match. -/
def matchAfterAt (cs : List Char) : Option (VarMatch × List Char) :=
  let nm := cs.takeWhile nameChar
  if nm.isEmpty then none
  else
    let r1 := cs.dropWhile nameChar
    let r2 := r1.dropWhile jsSpace
    match r2 with
    | ':' :: r3 =>
      let ws := r3.takeWhile jsSpace
      let r4 := r3.dropWhile jsSpace
      let v := r4.takeWhile valueChar
      if v.isEmpty then
        match backSplit ws with
        | some (_, x, s) => some (⟨String.mk nm, String.mk [x]⟩, s ++ r4)
        | none => none
      else
        some (⟨String.mk nm, String.mk v⟩, r4.dropWhile valueChar)
    | _ => none

/-- The `while ((match = regex.exec(text)) !== null)` loop of
`getAll`: left-to-right scan collecting non-overlapping matches; after
a match the scan resumes at the end of the match (`lastIndex`).  The
`fuel` argument only bounds the recursion; every step consumes at
least one character, so `fuel = length` is enough. -/
def scanFuel : Nat → List Char → List VarMatch
  | 0, _ => []
  | _ + 1, [] => []
  | fuel + 1, c :: cs =>
    if c = '@' then
      match matchAfterAt cs with
      | some (m, rest) => m :: scanFuel fuel rest
      | none => scanFuel fuel cs
    else
      scanFuel fuel cs

/-- `LESSHint.prototype.getAll` applied to `this.regex`: all matches of
the declaration pattern in the text, in document order. -/
def getAll (text : String) : List VarMatch :=
  scanFuel text.data.length text.data

/-- `s.toLowerCase().split("")`: the characters of `s` lower-cased. -/
def lowerData (s : String) : List Char :=
  s.data.map Char.toLower

/-- The filter loop body of `filterHints`: for each written character
take `hint.indexOf(written[i])`; reject on `-1`, otherwise continue in
`hint.substr(index + 1)`.  `dropWhile (· != w)` positions the search
at the first occurrence of `w`. -/
def greedyKeep : List Char → List Char → Bool
  | [], _ => true
  | w :: ws, hint =>
    match hint.dropWhile (fun c => c != w) with
    | [] => false
    | _ :: rest => greedyKeep ws rest

/-- `LESSHint.prototype.filterHints`: keep the matches whose
lower-cased name survives the greedy scan of the lower-cased written
text. -/
def filterHints (written : String) (ms : List VarMatch) : List VarMatch :=
  ms.filter (fun m => greedyKeep (lowerData written) (lowerData m.name))

/-- JavaScript string comparison `a < b` (lexicographic by code
unit), as used by the sort comparator in `processHints`. -/
def strLt : List Char → List Char → Bool
  | [], [] => false
  | [], _ :: _ => true
  | _ :: _, [] => false
  | a :: as, b :: bs =>
    if a < b then true
    else if b < a then false
    else strLt as bs

/-- The sort key of the comparator in `processHints`:
`match[1].toLowerCase()`. -/
def matchKey (m : VarMatch) : List Char :=
  lowerData m.name

/-- Stable insertion of a match into an already sorted list: the new
element goes before the first element that is not strictly smaller.
This realizes the observable behavior of `Array.prototype.sort` with
the comparator of `processHints` (sorted and stable). -/
def insMatch (x : VarMatch) : List VarMatch → List VarMatch
  | [] => [x]
  | y :: ys => if strLt (matchKey y) (matchKey x) then y :: insMatch x ys else x :: y :: ys

/-- The `matches.sort(...)` call of `processHints` as a stable
insertion sort. -/
def sortMatches : List VarMatch → List VarMatch
  | [] => []
  | x :: xs => insMatch x (sortMatches xs)

/-- A single-quote character, for building the HTML display string. -/
def sq : String := "\x27"

/-- The rendering of one match in `this.hintsHTML`:
`match[1] + "<span style=...>" + match[2] + "</span>"`. -/
def hintHTML (m : VarMatch) : String :=
  m.name ++ "<span style=" ++ sq ++ "color:#a0a0a0; margin-left: 10px" ++ sq ++ ">"
    ++ m.value ++ "</span>"

/-- `LESSHint.prototype.processHints`: sort the (already filtered)
matches and rebuild `this.hints` (the names) and `this.hintsHTML` (the
renderings) from the sorted list. -/
def processHints (ms : List VarMatch) (st : HintState) : HintState :=
  let s := sortMatches ms
  { st with hints := s.map VarMatch.name, hintsHTML := s.map hintHTML }

/-- JavaScript truthiness of the `implicitChar` argument: `undefined`
(`none`) and the empty string are falsy. -/
def truthy : Option String → Bool
  | none => false
  | some s => s != ""

/-- The line of the host document at index `i` (empty when out of
range). -/
def lineAt (doc : List String) (i : Nat) : String :=
  doc.getD i ""

/-- Modelled from the spec: the host `Document.getRange(start, end)`
(the `getRangeText` operation of §6), returning the text of the
half-open span between two positions of the line/column addressed
buffer. -/
def getRange (doc : List String) (a b : Pos) : String :=
  if a.line = b.line then
    String.mk (((lineAt doc a.line).data.drop a.ch).take (b.ch - a.ch))
  else
    String.intercalate "\n"
      (String.mk ((lineAt doc a.line).data.drop a.ch)
        :: ((doc.drop (a.line + 1)).take (b.line - a.line - 1)
          ++ [String.mk ((lineAt doc b.line).data.take b.ch)]))

/-- Modelled from the spec: the host `document.getText()` (the
`getFullText` operation of §6), used by `LESSHint.prototype.getText`. -/
def getText (doc : List String) : String :=
  String.intercalate "\n" doc

/-- `LESSHint.prototype.validPosition`: rejects when a written
character exists and fails `this.chars`, or when the cursor left the
start line or moved before the start column; otherwise recomputes
`this.writtenSinceStart` from the document range and accepts.
`none` models returning `false` (the state is untouched), `some st`
models returning `true` with the updated state. -/
def validPosition (st : HintState) (doc : List String) (cursor : Pos)
    (implicitChar : Option String) : Option HintState :=
  if truthy implicitChar && !charsTest (implicitChar.getD "") then
    none
  else if cursor.line = st.startPos.line ∧ st.startPos.ch ≤ cursor.ch then
    some { st with writtenSinceStart := getRange doc st.startPos cursor }
  else
    none

/-- `LESSHint.prototype.getHints`: `null` (modelled `none`) when
`validPosition` fails, otherwise extract, filter, process, and return
`this.hintsHTML` (the `hints` field of the result object). -/
def getHints (st : HintState) (doc : List String) (cursor : Pos)
    (implicitChar : Option String) : HintState × Option (List String) :=
  match validPosition st doc cursor implicitChar with
  | none => (st, none)
  | some st1 =>
    let text := getText doc
    let ms := getAll text
    let ms2 := filterHints st1.writtenSinceStart ms
    let st2 := processHints ms2 st1
    (st2, some st2.hintsHTML)

/-- `LESSHint.prototype.hasHints`: unconditionally records
`this.startPos = editor.getCursorPos()` (and `this.editor`), then
returns whether the written character is the sigil `"@"`. -/
def hasHints (st : HintState) (cursor : Pos) (implicitChar : Option String) :
    HintState × Bool :=
  ({ st with startPos := cursor },
    if truthy implicitChar then implicitChar.getD "" == "@" else false)

/-- `Array.prototype.indexOf`: first index of `target`, `none` for the
JavaScript `-1`. -/
def indexOfStr (target : String) : List String → Option Nat
  | [] => none
  | x :: xs => if x == target then some 0 else (indexOfStr target xs).map (· + 1)

/-- `LESSHint.prototype.insertHint`: look the chosen display form up
in `this.hintsHTML`, fetch `this.hints[index]` and call
`document.replaceRange(hint, this.startPos, pos)`.  When the display
form is not found, `index` is `-1` and `this.hints[-1]` is
`undefined` (`none`); the call is issued regardless. -/
def insertHint (st : HintState) (cursor : Pos) (hint : String) : ReplaceReq :=
  match indexOfStr hint st.hintsHTML with
  | some i => ⟨st.hints.get? i, st.startPos, cursor⟩
  | none => ⟨none, st.startPos, cursor⟩

/-- Splice of a document span, for `applyReplaceRange`. -/
def spliceDoc (doc : List String) (a b : Pos) (t : String) : List String :=
  doc.take a.line
    ++ [String.mk ((lineAt doc a.line).data.take a.ch ++ t.data
          ++ (lineAt doc b.line).data.drop b.ch)]
    ++ doc.drop (b.line + 1)

/-- Modelled from the spec: the host `replaceRange(text, start, end)`
of §6 "mutates the host document, replacing the half-open span with
`text`" — defined only for an actual string.  For the JavaScript
`undefined` text (`none`) the host performs no well-defined
replacement (CodeMirror fails on a non-string), modelled `none`. -/
def applyReplaceRange (doc : List String) (req : ReplaceReq) : Option (List String) :=
  match req.text with
  | none => none
  | some t => some (spliceDoc doc req.start req.stop t)

/-- The exact text of one declaration occurrence: sigil, name,
optional whitespace, colon, optional whitespace, value. -/
def matchShape (nm ws1 ws2 v : List Char) : List Char :=
  '@' :: (nm ++ ws1 ++ ':' :: (ws2 ++ v))

/-- `OccursInOrder cs ms`: the matches `ms` appear in `cs` as
non-overlapping occurrences of the declaration pattern, in order,
each well-formed (non-empty name of name characters, whitespace
paddings, non-empty value of value characters). -/
inductive OccursInOrder : List Char → List VarMatch → Prop
  | nil (cs : List Char) : OccursInOrder cs []
  | cons (pre nm ws1 ws2 v rest : List Char) (ms : List VarMatch)
      (hnm : nm ≠ [] ∧ nm.all nameChar = true)
      (hws1 : ws1.all jsSpace = true)
      (hws2 : ws2.all jsSpace = true)
      (hv : v ≠ [] ∧ v.all valueChar = true)
      (htail : OccursInOrder rest ms) :
      OccursInOrder (pre ++ matchShape nm ws1 ws2 v ++ rest)
        (⟨String.mk nm, String.mk v⟩ :: ms)

/-- `OccursAt cs k`: a well-formed occurrence of the declaration
pattern starts at offset `k` of `cs`. -/
def OccursAt (cs : List Char) (k : Nat) : Prop :=
  ∃ pre nm ws1 ws2 v rest, pre.length = k
    ∧ cs = pre ++ matchShape nm ws1 ws2 v ++ rest
    ∧ nm ≠ [] ∧ nm.all nameChar = true ∧ ws1.all jsSpace = true
    ∧ ws2.all jsSpace = true ∧ v ≠ [] ∧ v.all valueChar = true

/-- The claim's specification of extraction, stated from its words:
`AllOccurrences cs ms` holds when `ms` is the complete left-to-right
sequence of non-overlapping occurrences of the declaration pattern in
`cs` — each listed match is a well-formed occurrence, it is the
leftmost one in the not-yet-consumed input (`hleft`), the scan
continues in the rest after the match (`htail`), and after the last
listed match no occurrence remains anywhere in the remainder (the
`nil` side condition).  A scan that dropped or deduplicated a later
occurrence could not satisfy this relation. -/
inductive AllOccurrences : List Char → List VarMatch → Prop
  | nil (cs : List Char) : (∀ k, ¬OccursAt cs k) → AllOccurrences cs []
  | cons (pre nm ws1 ws2 v rest : List Char) (ms : List VarMatch)
      (hnm : nm ≠ [] ∧ nm.all nameChar = true)
      (hws1 : ws1.all jsSpace = true)
      (hws2 : ws2.all jsSpace = true)
      (hv : v ≠ [] ∧ v.all valueChar = true)
      (hleft : ∀ k, OccursAt (pre ++ matchShape nm ws1 ws2 v ++ rest) k →
        pre.length ≤ k)
      (htail : AllOccurrences rest ms) :
      AllOccurrences (pre ++ matchShape nm ws1 ws2 v ++ rest)
        (⟨String.mk nm, String.mk v⟩ :: ms)

/-! Helper lemmas about lists and characters. -/

lemma takeWhile_append_of_all {p : Char → Bool} :
    ∀ {l1 : List Char} (l2 : List Char), l1.all p = true →
      (l1 ++ l2).takeWhile p = l1 ++ l2.takeWhile p := by
  intro l1
  induction l1 with
  | nil => intro l2 _; simp
  | cons x xs ih =>
    intro l2 hall
    rw [List.all_cons, Bool.and_eq_true] at hall
    simp [List.takeWhile_cons, hall.1, ih l2 hall.2]

lemma dropWhile_append_of_all {p : Char → Bool} :
    ∀ {l1 : List Char} (l2 : List Char), l1.all p = true →
      (l1 ++ l2).dropWhile p = l2.dropWhile p := by
  intro l1
  induction l1 with
  | nil => intro l2 _; simp
  | cons x xs ih =>
    intro l2 hall
    rw [List.all_cons, Bool.and_eq_true] at hall
    simp [List.dropWhile_cons, hall.1, ih l2 hall.2]

lemma dropWhile_append_of_ne_nil {p : Char → Bool} :
    ∀ {l1 : List Char} (l2 : List Char), l1.dropWhile p ≠ [] →
      (l1 ++ l2).dropWhile p = l1.dropWhile p ++ l2 := by
  intro l1
  induction l1 with
  | nil => intro l2 h; exact absurd rfl h
  | cons x xs ih =>
    intro l2 h
    by_cases hx : p x
    · rw [List.dropWhile_cons_of_pos hx] at h
      rw [List.cons_append, List.dropWhile_cons_of_pos hx,
        List.dropWhile_cons_of_pos hx, ih l2 h]
    · have hx' : p x = false := by revert hx; cases p x <;> simp
      rw [List.cons_append, List.dropWhile_cons_of_neg (by simp [hx']),
        List.dropWhile_cons_of_neg (by simp [hx'])]
      rfl

lemma all_takeWhile {p : Char → Bool} : ∀ (l : List Char), (l.takeWhile p).all p = true := by
  intro l
  induction l with
  | nil => rfl
  | cons x xs ih =>
    by_cases hx : p x
    · rw [List.takeWhile_cons_of_pos hx, List.all_cons, Bool.and_eq_true]
      exact ⟨hx, ih⟩
    · have hx' : p x = false := by revert hx; cases p x <;> simp
      rw [List.takeWhile_cons_of_neg (by simp [hx'])]
      rfl

lemma get?_map_eq (f : VarMatch → String) :
    ∀ (l : List VarMatch) (i : Nat), (l.map f).get? i = (l.get? i).map f := by
  intro l
  induction l with
  | nil => intro i; cases i <;> rfl
  | cons x xs ih => intro i; cases i with
    | zero => rfl
    | succ j => exact ih j

lemma mem_of_get?_eq_some {α : Type} :
    ∀ {l : List α} {i : Nat} {a : α}, l.get? i = some a → a ∈ l := by
  intro l
  induction l with
  | nil => intro i a h; cases i <;> simp [List.get?] at h
  | cons x xs ih =>
    intro i a h
    cases i with
    | zero =>
      have hx : x = a := by
        have h0 : some x = some a := h
        exact Option.some.inj h0
      exact hx ▸ List.mem_cons_self x xs
    | succ j =>
      have h2 : xs.get? j = some a := h
      exact List.mem_cons_of_mem x (ih h2)

lemma indexOfStr_of_not_mem :
    ∀ {l : List String} {h : String}, h ∉ l → indexOfStr h l = none := by
  intro l
  induction l with
  | nil => intro h _; rfl
  | cons x xs ih =>
    intro h hmem
    have hne : (x == h) = false :=
      beq_eq_false_iff_ne.mpr (fun he => hmem (he ▸ List.mem_cons_self x xs))
    simp only [indexOfStr, hne, Bool.false_eq_true, if_false]
    rw [ih (fun hx => hmem (List.mem_cons_of_mem x hx))]
    rfl

lemma indexOfStr_mem :
    ∀ {l : List String} {h : String}, h ∈ l →
      ∃ i, indexOfStr h l = some i ∧ l.get? i = some h := by
  intro l
  induction l with
  | nil => intro h hmem; cases hmem
  | cons x xs ih =>
    intro h hmem
    by_cases hbeq : x = h
    · exact ⟨0, by simp [indexOfStr, hbeq], by simp [List.get?, hbeq]⟩
    · have hne : (x == h) = false := by simpa using hbeq
      have hx : h ∈ xs := by
        rcases List.mem_cons.mp hmem with he | hx
        · exact absurd he.symm hbeq
        · exact hx
      obtain ⟨i, h1, h2⟩ := ih hx
      exact ⟨i + 1, by simp [indexOfStr, hne, h1], by simpa using h2⟩

lemma backSplit_sound :
    ∀ {l p : List Char} {x : Char} {s : List Char}, backSplit l = some (p, x, s) →
      l = p ++ x :: s ∧ (x == '\n') = false := by
  intro l
  induction l with
  | nil => intro p x s h; cases h
  | cons c cs ih =>
    intro p x s h
    rw [backSplit] at h
    cases hb : backSplit cs with
    | some t =>
      obtain ⟨p0, x0, s0⟩ := t
      rw [hb] at h
      cases h
      obtain ⟨he, hx⟩ := ih hb
      exact ⟨by rw [List.cons_append, ← he], hx⟩
    | none =>
      rw [hb] at h
      by_cases hc : (c != '\n') = true
      · rw [if_pos hc] at h
        cases h
        exact ⟨rfl, by simpa using hc⟩
      · rw [if_neg hc] at h
        cases h

lemma backSplit_eq_none :
    ∀ {l : List Char}, backSplit l = none → l.all (fun c => c == '\n') = true := by
  intro l
  induction l with
  | nil => intro _; rfl
  | cons c cs ih =>
    intro h
    rw [backSplit] at h
    cases hb : backSplit cs with
    | some t => rw [hb] at h; cases h
    | none =>
      rw [hb] at h
      by_cases hc : (c != '\n') = true
      · rw [if_pos hc] at h; cases h
      · rw [List.all_cons, Bool.and_eq_true]
        refine ⟨?_, ih hb⟩
        by_cases hq : (c == '\n') = true
        · exact hq
        · exact absurd (by simp [bne, hq]) hc

lemma backSplit_isSome :
    ∀ {l : List Char} {c : Char}, c ∈ l → (c == '\n') = false →
      (backSplit l).isSome = true := by
  intro l
  induction l with
  | nil => intro c h _; cases h
  | cons a as ih =>
    intro c hmem hc
    rw [backSplit]
    cases hb : backSplit as with
    | some t => obtain ⟨p, x, s⟩ := t; rfl
    | none =>
      rcases List.mem_cons.mp hmem with he | hx
      · subst he
        rw [if_pos (by simpa using hc)]
        rfl
      · have hall := backSplit_eq_none hb
        rw [List.all_eq_true] at hall
        have := hall c hx
        rw [this] at hc
        cases hc

lemma jsSpace_not_nameChar {c : Char} (h : jsSpace c = true) : nameChar c = false := by
  simp only [jsSpace, Bool.or_eq_true, beq_iff_eq] at h
  rcases h with ((((h | h) | h) | h) | h) | h <;> subst h <;> decide

lemma jsSpace_not_semi {c : Char} (h : jsSpace c = true) : (c == ';') = false := by
  simp only [jsSpace, Bool.or_eq_true, beq_iff_eq] at h
  rcases h with ((((h | h) | h) | h) | h) | h <;> subst h <;> decide

lemma valueChar_of_space_not_nl {c : Char} (h1 : jsSpace c = true)
    (h2 : (c == '\n') = false) : valueChar c = true := by
  rw [valueChar, Bool.and_eq_true]
  constructor
  · simpa using h2
  · simpa using jsSpace_not_semi h1

lemma mem_of_all_false {p : Char → Bool} {l : List Char} {c : Char}
    (hall : l.all p = true) (hmem : c ∈ l) : p c = true := by
  rw [List.all_eq_true] at hall
  exact hall c hmem

/-! The greedy first-occurrence scan of `filterHints` accepts exactly
the subsequences. -/

lemma head_dropWhile_false {p : Char → Bool} :
    ∀ {l : List Char} {x : Char} {r : List Char}, l.dropWhile p = x :: r → p x = false := by
  intro l
  induction l with
  | nil => intro x r h; cases h
  | cons c cs ih =>
    intro x r h
    by_cases hc : p c
    · rw [List.dropWhile_cons_of_pos hc] at h
      exact ih h
    · have hc' : p c = false := by revert hc; cases p c <;> simp
      rw [List.dropWhile_cons_of_neg (by simp [hc'])] at h
      cases h
      exact hc'

lemma greedy_sublist :
    ∀ (ws : List Char) (hint : List Char), greedyKeep ws hint = true →
      List.Sublist ws hint := by
  intro ws
  induction ws with
  | nil => intro hint _; exact List.nil_sublist hint
  | cons w ws ih =>
    intro hint h
    rw [greedyKeep] at h
    cases hd : hint.dropWhile (fun c => c != w) with
    | nil => rw [hd] at h; cases h
    | cons x rest =>
      rw [hd] at h
      have hx : x = w := by
        have := head_dropWhile_false hd
        simpa [bne] using this
      subst hx
      have hsub : List.Sublist (x :: ws) (x :: rest) := List.Sublist.cons₂ x (ih rest h)
      have hht : hint = hint.takeWhile (fun c => c != x) ++ (x :: rest) := by
        rw [← hd, List.takeWhile_append_dropWhile]
      rw [hht]
      exact hsub.trans (List.sublist_append_right _ _)

lemma sublist_dropWhile :
    ∀ {hint : List Char} (w : Char) {ws : List Char},
      List.Sublist (w :: ws) hint →
      ∃ rest, hint.dropWhile (fun c => c != w) = w :: rest ∧ List.Sublist ws rest := by
  intro hint
  induction hint with
  | nil =>
    intro w ws h
    exact absurd (List.sublist_nil.mp h) (by simp)
  | cons x t ih =>
    intro w ws h
    cases h with
    | cons _ h2 =>
      obtain ⟨rest, hd, hs⟩ := ih w h2
      by_cases hxw : x = w
      · subst hxw
        refine ⟨t, ?_, List.sublist_of_cons_sublist h2⟩
        rw [List.dropWhile_cons_of_neg (by simp)]
      · refine ⟨rest, ?_, hs⟩
        rw [List.dropWhile_cons_of_pos (by simp [hxw]), hd]
    | cons₂ _ h2 =>
      refine ⟨t, ?_, h2⟩
      rw [List.dropWhile_cons_of_neg (by simp)]

lemma sublist_greedy :
    ∀ (ws : List Char) (hint : List Char), List.Sublist ws hint →
      greedyKeep ws hint = true := by
  intro ws
  induction ws with
  | nil => intro hint _; rfl
  | cons w ws ih =>
    intro hint h
    obtain ⟨rest, hd, hs⟩ := sublist_dropWhile w h
    rw [greedyKeep, hd]
    exact ih rest hs

lemma greedyKeep_iff_sublist (ws hint : List Char) :
    greedyKeep ws hint = true ↔ List.Sublist ws hint :=
  ⟨greedy_sublist ws hint, sublist_greedy ws hint⟩

/-! Order lemmas for the JavaScript string comparison `strLt`. -/

lemma strLt_irrefl : ∀ (a : List Char), strLt a a = false := by
  intro a
  induction a with
  | nil => rfl
  | cons x xs ih => simp [strLt, lt_irrefl, ih]

lemma strLt_asymm : ∀ (a b : List Char), strLt a b = true → strLt b a = false := by
  intro a
  induction a with
  | nil =>
    intro b h
    cases b with
    | nil => cases h
    | cons y ys => rfl
  | cons x xs ih =>
    intro b h
    cases b with
    | nil => cases h
    | cons y ys =>
      rw [strLt] at h
      by_cases h1 : x < y
      · have h2 : ¬y < x := lt_asymm h1
        simp [strLt, h1, h2]
      · by_cases h2 : y < x
        · rw [if_neg h1, if_pos h2] at h
          cases h
        · rw [if_neg h1, if_neg h2] at h
          simp [strLt, h1, h2, ih ys h]

lemma strLt_trans :
    ∀ (a b c : List Char), strLt a b = true → strLt b c = true → strLt a c = true := by
  intro a
  induction a with
  | nil =>
    intro b c h1 h2
    cases b with
    | nil => cases h1
    | cons y ys =>
      cases c with
      | nil => cases h2
      | cons z zs => rfl
  | cons x xs ih =>
    intro b c h1 h2
    cases b with
    | nil => cases h1
    | cons y ys =>
      cases c with
      | nil => cases h2
      | cons z zs =>
        rw [strLt] at h1 h2
        by_cases hxy : x < y
        · by_cases hyz : y < z
          · simp [strLt, lt_trans hxy hyz]
          · by_cases hzy : z < y
            · rw [if_neg hyz, if_pos hzy] at h2; cases h2
            · have hyzeq : y = z := le_antisymm (le_of_not_lt hzy) (le_of_not_lt hyz)
              subst hyzeq
              simp [strLt, hxy]
        · by_cases hyx : y < x
          · rw [if_neg hxy, if_pos hyx] at h1; cases h1
          · have hxyeq : x = y := le_antisymm (le_of_not_lt hyx) (le_of_not_lt hxy)
            subst hxyeq
            rw [if_neg hxy, if_neg hxy] at h1
            by_cases hyz : x < z
            · simp [strLt, hyz]
            · by_cases hzy : z < x
              · rw [if_neg hyz, if_pos hzy] at h2; cases h2
              · rw [if_neg hyz, if_neg hzy] at h2
                simp [strLt, hyz, hzy, ih ys zs h1 h2]

lemma strLt_trichotomy :
    ∀ (a b : List Char), strLt a b = true ∨ a = b ∨ strLt b a = true := by
  intro a
  induction a with
  | nil =>
    intro b
    cases b with
    | nil => exact Or.inr (Or.inl rfl)
    | cons y ys => exact Or.inl rfl
  | cons x xs ih =>
    intro b
    cases b with
    | nil => exact Or.inr (Or.inr rfl)
    | cons y ys =>
      rcases lt_trichotomy x y with hlt | heq | hgt
      · exact Or.inl (by simp [strLt, hlt])
      · subst heq
        rcases ih ys with h | h | h
        · exact Or.inl (by simp [strLt, lt_irrefl, h])
        · exact Or.inr (Or.inl (by rw [h]))
        · exact Or.inr (Or.inr (by simp [strLt, lt_irrefl, h]))
      · exact Or.inr (Or.inr (by simp [strLt, hgt, lt_asymm hgt]))

lemma strLt_le_trans {a b c : List Char}
    (hba : strLt b a = false) (hcb : strLt c b = false) : strLt c a = false := by
  cases hca : strLt c a with
  | false => rfl
  | true =>
    exfalso
    rcases strLt_trichotomy b c with h1 | h1 | h1
    · rw [strLt_trans b c a h1 hca] at hba
      cases hba
    · subst h1
      rw [hca] at hba
      cases hba
    · rw [h1] at hcb
      cases hcb

/-! The sort of `processHints` is sorted, stable and a permutation. -/

lemma insMatch_perm (x : VarMatch) :
    ∀ (l : List VarMatch), (insMatch x l).Perm (x :: l) := by
  intro l
  induction l with
  | nil => exact List.Perm.refl [x]
  | cons y ys ih =>
    by_cases h : strLt (matchKey y) (matchKey x) = true
    · simp only [insMatch, h, if_true]
      exact (List.Perm.cons y ih).trans (List.Perm.swap x y ys)
    · simp only [insMatch, h, if_false]
      exact List.Perm.refl _

lemma sortMatches_perm : ∀ (l : List VarMatch), (sortMatches l).Perm l := by
  intro l
  induction l with
  | nil => exact List.Perm.refl []
  | cons x xs ih =>
    rw [sortMatches]
    exact (insMatch_perm x (sortMatches xs)).trans (List.Perm.cons x ih)

lemma insMatch_pairwise (x : VarMatch) :
    ∀ {l : List VarMatch},
      l.Pairwise (fun a b => strLt (matchKey b) (matchKey a) = false) →
      (insMatch x l).Pairwise (fun a b => strLt (matchKey b) (matchKey a) = false) := by
  intro l
  induction l with
  | nil => intro _; exact List.pairwise_singleton _ x
  | cons y ys ih =>
    intro hp
    rw [List.pairwise_cons] at hp
    obtain ⟨hy, hys⟩ := hp
    by_cases h : strLt (matchKey y) (matchKey x) = true
    · simp only [insMatch, h, if_true]
      rw [List.pairwise_cons]
      refine ⟨?_, ih hys⟩
      intro b hb
      rcases List.mem_cons.mp ((insMatch_perm x ys).mem_iff.mp hb) with hbx | hby
      · subst hbx
        exact strLt_asymm _ _ h
      · exact hy b hby
    · have hfalse : strLt (matchKey y) (matchKey x) = false := by
        revert h; cases strLt (matchKey y) (matchKey x) <;> simp
      simp only [insMatch]
      rw [if_neg h]
      rw [List.pairwise_cons]
      refine ⟨?_, List.pairwise_cons.mpr ⟨hy, hys⟩⟩
      intro b hb
      rcases List.mem_cons.mp hb with hby | hbys
      · subst hby
        exact hfalse
      · exact strLt_le_trans hfalse (hy b hbys)

lemma sortMatches_pairwise :
    ∀ (l : List VarMatch),
      (sortMatches l).Pairwise (fun a b => strLt (matchKey b) (matchKey a) = false) := by
  intro l
  induction l with
  | nil => exact List.Pairwise.nil
  | cons x xs ih =>
    rw [sortMatches]
    exact insMatch_pairwise x ih

lemma filter_insMatch (x : VarMatch) (k : List Char) :
    ∀ (l : List VarMatch),
      (insMatch x l).filter (fun a => matchKey a == k)
        = (x :: l).filter (fun a => matchKey a == k) := by
  intro l
  induction l with
  | nil => rfl
  | cons y ys ih =>
    by_cases hlt : strLt (matchKey y) (matchKey x) = true
    · simp only [insMatch, hlt, if_true]
      by_cases hy : (matchKey y == k) = true <;> by_cases hx : (matchKey x == k) = true
      · exfalso
        have hy' : matchKey y = k := eq_of_beq hy
        have hx' : matchKey x = k := eq_of_beq hx
        rw [hy', hx', strLt_irrefl] at hlt
        cases hlt
      · simp [List.filter_cons, hy, hx, ih]
      · simp [List.filter_cons, hy, hx, ih]
      · simp [List.filter_cons, hy, hx, ih]
    · simp only [insMatch]
      rw [if_neg hlt]

lemma ne_nil_of_not_isEmpty {l : List Char} (h : ¬(l.isEmpty = true)) : l ≠ [] := by
  cases l with
  | nil => exact absurd rfl h
  | cons x xs => exact List.cons_ne_nil x xs

lemma matchAfterAt_sound {cs : List Char} {m : VarMatch} {rest : List Char}
    (h : matchAfterAt cs = some (m, rest)) :
    ∃ nm ws1 ws2 v, m = ⟨String.mk nm, String.mk v⟩
      ∧ cs = nm ++ ws1 ++ ':' :: (ws2 ++ (v ++ rest))
      ∧ nm ≠ [] ∧ nm.all nameChar = true
      ∧ ws1.all jsSpace = true ∧ ws2.all jsSpace = true
      ∧ v ≠ [] ∧ v.all valueChar = true := by
  simp only [matchAfterAt] at h
  split at h
  · exact Option.noConfusion h
  · rename_i hne
    split at h
    · rename_i r3 heq
      split at h
      · rename_i hvempty
        split at h
        · rename_i p x s heq2
          obtain ⟨hsplit, hxnl⟩ := backSplit_sound heq2
          injection h with h1
          injection h1 with hm hrest
          refine ⟨cs.takeWhile nameChar, (cs.dropWhile nameChar).takeWhile jsSpace,
            p, [x], hm.symm, ?_, ne_nil_of_not_isEmpty hne, all_takeWhile _,
            all_takeWhile _, ?_, List.cons_ne_nil x [], ?_⟩
          · have e1 : r3 = (p ++ x :: s) ++ r3.dropWhile jsSpace := by
              rw [← hsplit]
              exact (List.takeWhile_append_dropWhile jsSpace r3).symm
            have e2 : r3 = p ++ ([x] ++ (s ++ r3.dropWhile jsSpace)) :=
              e1.trans (by simp [List.append_assoc])
            have e2r : r3 = p ++ ([x] ++ rest) := by
              rw [← hrest]
              exact e2
            have e3 : cs.dropWhile nameChar
                = (cs.dropWhile nameChar).takeWhile jsSpace ++ ':' :: (p ++ ([x] ++ rest)) := by
              rw [← e2r, ← heq]
              exact (List.takeWhile_append_dropWhile jsSpace (cs.dropWhile nameChar)).symm
            have e4 : cs = cs.takeWhile nameChar
                ++ ((cs.dropWhile nameChar).takeWhile jsSpace ++ ':' :: (p ++ ([x] ++ rest))) := by
              rw [← e3]
              exact (List.takeWhile_append_dropWhile nameChar cs).symm
            rw [List.append_assoc]
            exact e4
          · have hall : (r3.takeWhile jsSpace).all jsSpace = true := all_takeWhile _
            rw [hsplit, List.all_append, Bool.and_eq_true] at hall
            exact hall.1
          · have hall : (r3.takeWhile jsSpace).all jsSpace = true := all_takeWhile _
            rw [hsplit, List.all_append, Bool.and_eq_true, List.all_cons,
              Bool.and_eq_true] at hall
            have hxv : valueChar x = true := valueChar_of_space_not_nl hall.2.1 hxnl
            simp [hxv]
        · exact Option.noConfusion h
      · rename_i hvempty
        injection h with h1
        injection h1 with hm hrest
        refine ⟨cs.takeWhile nameChar, (cs.dropWhile nameChar).takeWhile jsSpace,
          r3.takeWhile jsSpace, (r3.dropWhile jsSpace).takeWhile valueChar,
          hm.symm, ?_, ne_nil_of_not_isEmpty hne, all_takeWhile _,
          all_takeWhile _, all_takeWhile _, ne_nil_of_not_isEmpty hvempty,
          all_takeWhile _⟩
        have e1 : r3.dropWhile jsSpace
            = (r3.dropWhile jsSpace).takeWhile valueChar ++ rest := by
          rw [← hrest]
          exact (List.takeWhile_append_dropWhile valueChar (r3.dropWhile jsSpace)).symm
        have e2 : r3 = r3.takeWhile jsSpace
            ++ ((r3.dropWhile jsSpace).takeWhile valueChar ++ rest) := by
          rw [← e1]
          exact (List.takeWhile_append_dropWhile jsSpace r3).symm
        have e3 : cs.dropWhile nameChar
            = (cs.dropWhile nameChar).takeWhile jsSpace
              ++ ':' :: (r3.takeWhile jsSpace
                ++ ((r3.dropWhile jsSpace).takeWhile valueChar ++ rest)) := by
          rw [← e2, ← heq]
          exact (List.takeWhile_append_dropWhile jsSpace (cs.dropWhile nameChar)).symm
        have e4 : cs = cs.takeWhile nameChar
            ++ ((cs.dropWhile nameChar).takeWhile jsSpace
              ++ ':' :: (r3.takeWhile jsSpace
                ++ ((r3.dropWhile jsSpace).takeWhile valueChar ++ rest))) := by
          rw [← e3]
          exact (List.takeWhile_append_dropWhile nameChar cs).symm
        rw [List.append_assoc]
        exact e4
    · exact Option.noConfusion h

lemma occurs_cons (c : Char) {cs : List Char} {ms : List VarMatch}
    (h : OccursInOrder cs ms) : OccursInOrder (c :: cs) ms := by
  cases h with
  | nil => exact OccursInOrder.nil _
  | cons pre nm ws1 ws2 v rest ms hnm hws1 hws2 hv htail =>
    exact OccursInOrder.cons (c :: pre) nm ws1 ws2 v rest ms hnm hws1 hws2 hv htail

lemma matchAfterAt_rest_length {cs : List Char} {m : VarMatch} {rest : List Char}
    (h : matchAfterAt cs = some (m, rest)) : rest.length ≤ cs.length := by
  obtain ⟨nm, ws1, ws2, v, _, hcseq, _, _, _, _, _, _⟩ := matchAfterAt_sound h
  rw [hcseq]
  simp only [List.length_append, List.length_cons]
  omega

lemma scanFuel_sound :
    ∀ (fuel : Nat) (cs : List Char), cs.length ≤ fuel →
      OccursInOrder cs (scanFuel fuel cs) := by
  intro fuel
  induction fuel with
  | zero => intro cs _; exact OccursInOrder.nil cs
  | succ fuel ih =>
    intro cs hlen
    cases cs with
    | nil => exact OccursInOrder.nil []
    | cons c cs2 =>
      have hlen2 : cs2.length ≤ fuel := by
        rw [List.length_cons] at hlen
        omega
      by_cases hc : c = '@'
      · subst hc
        cases hm : matchAfterAt cs2 with
        | some t =>
          obtain ⟨m, rest⟩ := t
          have hgoal : scanFuel (fuel + 1) ('@' :: cs2) = m :: scanFuel fuel rest := by
            rw [scanFuel, if_pos rfl, hm]
          rw [hgoal]
          obtain ⟨nm, ws1, ws2, v, hmeq, hcseq, hnm1, hnm2, hws1, hws2, hv1, hv2⟩ :=
            matchAfterAt_sound hm
          subst hmeq
          have hshape : ('@' :: cs2 : List Char) = [] ++ matchShape nm ws1 ws2 v ++ rest := by
            rw [hcseq]
            simp [matchShape, List.append_assoc]
          rw [hshape]
          refine OccursInOrder.cons [] nm ws1 ws2 v rest _ ⟨hnm1, hnm2⟩ hws1 hws2
            ⟨hv1, hv2⟩ (ih rest ?_)
          exact le_trans (matchAfterAt_rest_length hm) hlen2
        | none =>
          have hgoal : scanFuel (fuel + 1) ('@' :: cs2) = scanFuel fuel cs2 := by
            rw [scanFuel, if_pos rfl, hm]
          rw [hgoal]
          exact occurs_cons '@' (ih cs2 hlen2)
      · have hgoal : scanFuel (fuel + 1) (c :: cs2) = scanFuel fuel cs2 := by
          rw [scanFuel, if_neg hc]
        rw [hgoal]
        exact occurs_cons c (ih cs2 hlen2)

lemma all_of_dropWhile_eq_nil {p : Char → Bool} :
    ∀ {l : List Char}, l.dropWhile p = [] → l.all p = true := by
  intro l
  induction l with
  | nil => intro _; rfl
  | cons x xs ih =>
    intro h
    by_cases hx : p x = true
    · rw [List.dropWhile_cons_of_pos hx] at h
      rw [List.all_cons, Bool.and_eq_true]
      exact ⟨hx, ih h⟩
    · rw [List.dropWhile_cons_of_neg hx] at h
      cases h

lemma valueChar_not_nl {c : Char} (h : valueChar c = true) : (c == '\n') = false := by
  rw [valueChar, Bool.and_eq_true] at h
  cases hc : c == '\n' with
  | false => rfl
  | true =>
    exfalso
    have h1 := h.1
    simp [bne, hc] at h1

lemma spacecolon_takeWhile {l R : List Char} (hall : l.all jsSpace = true) :
    (l ++ ':' :: R).takeWhile nameChar = [] := by
  cases l with
  | nil =>
    rw [List.nil_append]
    exact List.takeWhile_cons_of_neg (by decide)
  | cons w t =>
    rw [List.all_cons, Bool.and_eq_true] at hall
    rw [List.cons_append]
    exact List.takeWhile_cons_of_neg (by simp [jsSpace_not_nameChar hall.1])

lemma spacecolon_dropWhile {l R : List Char} (hall : l.all jsSpace = true) :
    (l ++ ':' :: R).dropWhile nameChar = l ++ ':' :: R := by
  cases l with
  | nil =>
    rw [List.nil_append]
    exact List.dropWhile_cons_of_neg (by decide)
  | cons w t =>
    rw [List.all_cons, Bool.and_eq_true] at hall
    rw [List.cons_append]
    rw [List.dropWhile_cons_of_neg (by simp [jsSpace_not_nameChar hall.1])]

lemma isEmpty_false_of_ne_nil {l : List Char} (h : l ≠ []) : ¬(l.isEmpty = true) := by
  cases l with
  | nil => exact absurd rfl h
  | cons x xs => simp

lemma matchAfterAt_succ (nm ws1 ws2 v tail : List Char)
    (hnm : nm ≠ []) (hnmA : nm.all nameChar = true)
    (hws1 : ws1.all jsSpace = true) (hws2 : ws2.all jsSpace = true)
    (hv : v ≠ []) (hvA : v.all valueChar = true) :
    (matchAfterAt (nm ++ ws1 ++ ':' :: (ws2 ++ (v ++ tail)))).isSome = true := by
  have hassoc : nm ++ ws1 ++ ':' :: (ws2 ++ (v ++ tail))
      = nm ++ (ws1 ++ ':' :: (ws2 ++ (v ++ tail))) := List.append_assoc nm ws1 _
  have htw : (nm ++ ws1 ++ ':' :: (ws2 ++ (v ++ tail))).takeWhile nameChar = nm := by
    rw [hassoc, takeWhile_append_of_all _ hnmA, spacecolon_takeWhile hws1,
      List.append_nil]
  have hdw : (nm ++ ws1 ++ ':' :: (ws2 ++ (v ++ tail))).dropWhile nameChar
      = ws1 ++ ':' :: (ws2 ++ (v ++ tail)) := by
    rw [hassoc, dropWhile_append_of_all _ hnmA, spacecolon_dropWhile hws1]
  have hr2 : (ws1 ++ ':' :: (ws2 ++ (v ++ tail))).dropWhile jsSpace
      = ':' :: (ws2 ++ (v ++ tail)) := by
    rw [dropWhile_append_of_all _ hws1]
    exact List.dropWhile_cons_of_neg (by decide)
  simp only [matchAfterAt, htw, hdw, hr2]
  rw [if_neg (isEmpty_false_of_ne_nil hnm)]
  by_cases hvemp :
      ((List.dropWhile jsSpace (ws2 ++ (v ++ tail))).takeWhile valueChar).isEmpty = true
  · rw [if_pos hvemp]
    have hvall : v.all jsSpace = true := by
      by_contra hvall
      have hne2 : v.dropWhile jsSpace ≠ [] :=
        fun hnil => hvall (all_of_dropWhile_eq_nil hnil)
      obtain ⟨hd, tl, hdt⟩ : ∃ hd tl, v.dropWhile jsSpace = hd :: tl := by
        cases hdw2 : v.dropWhile jsSpace with
        | nil => exact absurd hdw2 hne2
        | cons a t => exact ⟨a, t, rfl⟩
      have hRd : (ws2 ++ (v ++ tail)).dropWhile jsSpace = hd :: (tl ++ tail) := by
        rw [dropWhile_append_of_all _ hws2, dropWhile_append_of_ne_nil tail hne2, hdt]
        rfl
      have hdmem : hd ∈ v := by
        have hmm : hd ∈ v.takeWhile jsSpace ++ v.dropWhile jsSpace :=
          List.mem_append.mpr (Or.inr (by rw [hdt]; exact List.mem_cons_self hd tl))
        rw [List.takeWhile_append_dropWhile] at hmm
        exact hmm
      have hval : valueChar hd = true := mem_of_all_false hvA hdmem
      rw [hRd, List.takeWhile_cons_of_pos hval] at hvemp
      simp at hvemp
    obtain ⟨vh, vt, hvht⟩ : ∃ vh vt, v = vh :: vt := by
      cases v with
      | nil => exact absurd rfl hv
      | cons a t => exact ⟨a, t, rfl⟩
    have hvhm : vh ∈ v := by
      rw [hvht]
      exact List.mem_cons_self vh vt
    have htk : (ws2 ++ (v ++ tail)).takeWhile jsSpace
        = ws2 ++ (v ++ tail.takeWhile jsSpace) := by
      rw [takeWhile_append_of_all _ hws2, takeWhile_append_of_all _ hvall]
    have hmem : vh ∈ (ws2 ++ (v ++ tail)).takeWhile jsSpace := by
      rw [htk]
      exact List.mem_append.mpr (Or.inr (List.mem_append.mpr (Or.inl hvhm)))
    have hnl : (vh == '\n') = false :=
      valueChar_not_nl (mem_of_all_false hvA hvhm)
    have hbs := backSplit_isSome hmem hnl
    cases hbsv : backSplit ((ws2 ++ (v ++ tail)).takeWhile jsSpace) with
    | none => rw [hbsv] at hbs; cases hbs
    | some t =>
      obtain ⟨p, x, s⟩ := t
      rfl
  · rw [if_neg hvemp]
    rfl

lemma scanFuel_ne_nil :
    ∀ (fuel : Nat) (pre nm ws1 ws2 v rest : List Char),
      nm ≠ [] → nm.all nameChar = true → ws1.all jsSpace = true →
      ws2.all jsSpace = true → v ≠ [] → v.all valueChar = true →
      (pre ++ matchShape nm ws1 ws2 v ++ rest).length ≤ fuel →
      scanFuel fuel (pre ++ matchShape nm ws1 ws2 v ++ rest) ≠ [] := by
  intro fuel
  induction fuel with
  | zero =>
    intro pre nm ws1 ws2 v rest _ _ _ _ _ _ hlen
    exfalso
    rw [matchShape] at hlen
    simp only [List.length_append, List.length_cons] at hlen
    omega
  | succ fuel ih =>
    intro pre nm ws1 ws2 v rest h1 h2 h3 h4 h5 h6 hlen
    cases pre with
    | nil =>
      have hT : ([] : List Char) ++ matchShape nm ws1 ws2 v ++ rest
          = '@' :: (nm ++ ws1 ++ ':' :: (ws2 ++ (v ++ rest))) := by
        simp [matchShape, List.append_assoc]
      rw [hT]
      have hsucc := matchAfterAt_succ nm ws1 ws2 v rest h1 h2 h3 h4 h5 h6
      cases hm : matchAfterAt (nm ++ ws1 ++ ':' :: (ws2 ++ (v ++ rest))) with
      | none => rw [hm] at hsucc; cases hsucc
      | some t =>
        obtain ⟨m, rest2⟩ := t
        have hg : scanFuel (fuel + 1) ('@' :: (nm ++ ws1 ++ ':' :: (ws2 ++ (v ++ rest))))
            = m :: scanFuel fuel rest2 := by
          rw [scanFuel, if_pos rfl, hm]
        rw [hg]
        exact List.cons_ne_nil m _
    | cons c pre2 =>
      have hstep : (c :: pre2) ++ matchShape nm ws1 ws2 v ++ rest
          = c :: (pre2 ++ matchShape nm ws1 ws2 v ++ rest) := by
        simp [List.append_assoc]
      rw [hstep]
      have hlen2 : (pre2 ++ matchShape nm ws1 ws2 v ++ rest).length ≤ fuel := by
        rw [hstep] at hlen
        rw [List.length_cons] at hlen
        omega
      by_cases hc : c = '@'
      · subst hc
        cases hm : matchAfterAt (pre2 ++ matchShape nm ws1 ws2 v ++ rest) with
        | some t =>
          obtain ⟨m, rest2⟩ := t
          have hg : scanFuel (fuel + 1) ('@' :: (pre2 ++ matchShape nm ws1 ws2 v ++ rest))
              = m :: scanFuel fuel rest2 := by
            rw [scanFuel, if_pos rfl, hm]
          rw [hg]
          exact List.cons_ne_nil m _
        | none =>
          have hg : scanFuel (fuel + 1) ('@' :: (pre2 ++ matchShape nm ws1 ws2 v ++ rest))
              = scanFuel fuel (pre2 ++ matchShape nm ws1 ws2 v ++ rest) := by
            rw [scanFuel, if_pos rfl, hm]
          rw [hg]
          exact ih pre2 nm ws1 ws2 v rest h1 h2 h3 h4 h5 h6 hlen2
      · have hg : scanFuel (fuel + 1) (c :: (pre2 ++ matchShape nm ws1 ws2 v ++ rest))
            = scanFuel fuel (pre2 ++ matchShape nm ws1 ws2 v ++ rest) := by
          rw [scanFuel, if_neg hc]
        rw [hg]
        exact ih pre2 nm ws1 ws2 v rest h1 h2 h3 h4 h5 h6 hlen2

lemma scan_ne_nil_of_occurs {cs : List Char} {m : VarMatch} {ms : List VarMatch}
    (h : OccursInOrder cs (m :: ms)) : scanFuel cs.length cs ≠ [] := by
  cases h with
  | cons pre nm ws1 ws2 v rest ms2 hnm hws1 hws2 hv htail =>
    exact scanFuel_ne_nil _ pre nm ws1 ws2 v rest hnm.1 hnm.2 hws1 hws2 hv.1 hv.2 le_rfl

lemma not_occursAt_nil {k : Nat} : ¬OccursAt [] k := by
  rintro ⟨pre, nm, ws1, ws2, v, rest, hlen, heq, hrest⟩
  have hl := congrArg List.length heq
  simp only [List.length_nil, List.length_append, matchShape, List.length_cons] at hl
  omega

lemma occursAt_cons_succ {c : Char} {cs2 : List Char} {k : Nat}
    (h : OccursAt (c :: cs2) (k + 1)) : OccursAt cs2 k := by
  obtain ⟨pre, nm, ws1, ws2, v, rest, hlen, heq, hrest⟩ := h
  cases pre with
  | nil =>
    rw [List.length_nil] at hlen
    cases hlen
  | cons p0 pre2 =>
    rw [List.length_cons] at hlen
    rw [List.cons_append, List.cons_append] at heq
    injection heq with hhead htail2
    exact ⟨pre2, nm, ws1, ws2, v, rest, by omega, htail2, hrest⟩

lemma not_occursAt_zero_of_ne_at {c : Char} {cs2 : List Char} (hc : c ≠ '@') :
    ¬OccursAt (c :: cs2) 0 := by
  rintro ⟨pre, nm, ws1, ws2, v, rest, hlen, heq, hrest⟩
  have hpre : pre = [] := List.eq_nil_of_length_eq_zero hlen
  subst hpre
  rw [List.nil_append, matchShape, List.cons_append] at heq
  injection heq with hhead htail2
  exact hc hhead

lemma not_occursAt_zero_of_matchAfterAt_none {cs2 : List Char}
    (hm : matchAfterAt cs2 = none) : ¬OccursAt ('@' :: cs2) 0 := by
  rintro ⟨pre, nm, ws1, ws2, v, rest, hlen, heq, h1, h2, h3, h4, h5, h6⟩
  have hpre : pre = [] := List.eq_nil_of_length_eq_zero hlen
  subst hpre
  rw [List.nil_append, matchShape, List.cons_append] at heq
  injection heq with hhead htail2
  have hcs2 : cs2 = nm ++ ws1 ++ ':' :: (ws2 ++ (v ++ rest)) := by
    rw [htail2]
    simp [List.append_assoc]
  have hsucc := matchAfterAt_succ nm ws1 ws2 v rest h1 h2 h3 h4 h5 h6
  rw [← hcs2, hm] at hsucc
  cases hsucc

lemma allOccurrences_cons (c : Char) {cs2 : List Char} {ms : List VarMatch}
    (h0 : ¬OccursAt (c :: cs2) 0) (h : AllOccurrences cs2 ms) :
    AllOccurrences (c :: cs2) ms := by
  cases h with
  | nil cs2 hnone =>
    apply AllOccurrences.nil
    intro k hk
    cases k with
    | zero => exact h0 hk
    | succ k2 => exact hnone k2 (occursAt_cons_succ hk)
  | cons pre nm ws1 ws2 v rest ms hnm hws1 hws2 hv hleft htail =>
    refine AllOccurrences.cons (c :: pre) nm ws1 ws2 v rest ms hnm hws1 hws2 hv ?_ htail
    intro k hk
    cases k with
    | zero => exact absurd hk h0
    | succ k2 =>
      have h2 := hleft k2 (occursAt_cons_succ hk)
      rw [List.length_cons]
      omega

lemma scanFuel_allOccurrences :
    ∀ (fuel : Nat) (cs : List Char), cs.length ≤ fuel →
      AllOccurrences cs (scanFuel fuel cs) := by
  intro fuel
  induction fuel with
  | zero =>
    intro cs hlen
    have hnil : cs = [] := List.eq_nil_of_length_eq_zero (Nat.le_zero.mp hlen)
    subst hnil
    exact AllOccurrences.nil [] (fun k => not_occursAt_nil)
  | succ fuel ih =>
    intro cs hlen
    cases cs with
    | nil => exact AllOccurrences.nil [] (fun k => not_occursAt_nil)
    | cons c cs2 =>
      have hlen2 : cs2.length ≤ fuel := by
        rw [List.length_cons] at hlen
        omega
      by_cases hc : c = '@'
      · subst hc
        cases hm : matchAfterAt cs2 with
        | some t =>
          obtain ⟨m, rest⟩ := t
          have hgoal : scanFuel (fuel + 1) ('@' :: cs2) = m :: scanFuel fuel rest := by
            rw [scanFuel, if_pos rfl, hm]
          rw [hgoal]
          obtain ⟨nm, ws1, ws2, v, hmeq, hcseq, hnm1, hnm2, hws1, hws2, hv1, hv2⟩ :=
            matchAfterAt_sound hm
          subst hmeq
          have hshape : ('@' :: cs2 : List Char)
              = [] ++ matchShape nm ws1 ws2 v ++ rest := by
            rw [hcseq]
            simp [matchShape, List.append_assoc]
          rw [hshape]
          refine AllOccurrences.cons [] nm ws1 ws2 v rest _ ⟨hnm1, hnm2⟩ hws1 hws2
            ⟨hv1, hv2⟩ (fun k _ => Nat.zero_le k) (ih rest ?_)
          exact le_trans (matchAfterAt_rest_length hm) hlen2
        | none =>
          have hgoal : scanFuel (fuel + 1) ('@' :: cs2) = scanFuel fuel cs2 := by
            rw [scanFuel, if_pos rfl, hm]
          rw [hgoal]
          exact allOccurrences_cons '@' (not_occursAt_zero_of_matchAfterAt_none hm)
            (ih cs2 hlen2)
      · have hgoal : scanFuel (fuel + 1) (c :: cs2) = scanFuel fuel cs2 := by
          rw [scanFuel, if_neg hc]
        rw [hgoal]
        exact allOccurrences_cons c (not_occursAt_zero_of_ne_at hc) (ih cs2 hlen2)

lemma sortMatches_filter (k : List Char) :
    ∀ (l : List VarMatch),
      (sortMatches l).filter (fun a => matchKey a == k)
        = l.filter (fun a => matchKey a == k) := by
  intro l
  induction l with
  | nil => rfl
  | cons x xs ih =>
    rw [sortMatches, filter_insMatch]
    by_cases hx : (matchKey x == k) = true <;>
      simp [List.filter_cons, hx, ih]

/-! The claims. -/

/-- Claim C1 (amended): for the document text `"@color: red;\n@bg-color: blue;"`
and `writtenSinceStart = "@c"`, the filter rejects BOTH candidates (the
leading sigil never occurs inside a captured name, so every candidate
fails the first `indexOf` step and the result is empty); with the sigil
stripped (`writtenSinceStart = "c"`) both candidates are kept and the
sort yields `["bg-color", "color"]`. -/
theorem C1_sigil_rejects_all_amended :
    getAll "@color: red;\n@bg-color: blue;"
        = [⟨"color", "red"⟩, ⟨"bg-color", "blue"⟩]
    ∧ filterHints "@c" (getAll "@color: red;\n@bg-color: blue;") = []
    ∧ filterHints "c" (getAll "@color: red;\n@bg-color: blue;")
        = getAll "@color: red;\n@bg-color: blue;"
    ∧ (processHints (filterHints "c" (getAll "@color: red;\n@bg-color: blue;"))
        ⟨⟨0, 0⟩, "", [], []⟩).hints = ["bg-color", "color"] := by
  exact ⟨by decide, by decide, by decide, by decide⟩

/-- Claim C1 is false as stated: both candidates are extracted, yet the
filter with `"@c"` keeps neither of them — the leading sigil is not
ignored, it rejects every candidate. -/
theorem C1_counterexample :
    (getAll "@color: red;\n@bg-color: blue;").map VarMatch.name = ["color", "bg-color"]
    ∧ filterHints "@c" (getAll "@color: red;\n@bg-color: blue;") = [] := by
  decide

/-- Claim C2 (amended): for a display form that is not in `hintsHTML`,
`insertHint` is not a guarded no-op — it still issues the
`replaceRange` call over the span from `startPos` to the cursor, with
the undefined lookup `hints[-1]` (modelled `none`) as replacement
text.  The engine itself performs no found-check. -/
theorem C2_insertHint_not_found_amended (st : HintState) (cursor : Pos) (hint : String)
    (hnot : hint ∉ st.hintsHTML) :
    insertHint st cursor hint = ⟨none, st.startPos, cursor⟩ := by
  simp only [insertHint, indexOfStr_of_not_mem hnot]

/-- Witness for C2 at a concrete state. -/
theorem C2_witness :
    insertHint ⟨⟨0, 0⟩, "", ["color"], ["colorH"]⟩ ⟨0, 3⟩ "zz"
      = ⟨none, ⟨0, 0⟩, ⟨0, 3⟩⟩ :=
  C2_insertHint_not_found_amended ⟨⟨0, 0⟩, "", ["color"], ["colorH"]⟩ ⟨0, 3⟩ "zz"
    (by decide)

/-- Claim C2 is false as stated: for an unknown display form the call
that `insertHint` issues does not leave the host document unchanged as
a well-defined no-op — the host receives an undefined replacement text
(`applyReplaceRange` yields no unchanged document). -/
theorem C2_counterexample :
    ("zz" ∈ (⟨⟨0, 0⟩, "", ["color"], ["colorH"]⟩ : HintState).hintsHTML → False)
    ∧ applyReplaceRange ["@color: red;"]
        (insertHint ⟨⟨0, 0⟩, "", ["color"], ["colorH"]⟩ ⟨0, 3⟩ "zz")
      ≠ some ["@color: red;"] := by
  decide

/-- Claim C3: `filterHints` keeps a match exactly when the lower-cased
written text is a subsequence (in order, not necessarily contiguous)
of the lower-cased captured name; the greedy first-occurrence scan of
the implementation accepts exactly the subsequences. -/
theorem C3_filterHints_subsequence (written : String) (ms : List VarMatch)
    (m : VarMatch) :
    m ∈ filterHints written ms
      ↔ m ∈ ms ∧ List.Sublist (lowerData written) (lowerData m.name) := by
  simp only [filterHints, List.mem_filter, greedyKeep_iff_sublist]

/-- Claim C4: after `processHints` the hints are sorted by lower-cased
name ascending (`strLt` is the JavaScript string comparison), the sort
is stable (elements with any fixed key keep their relative order), and
`hints`/`hintsHTML` are index-aligned renderings of the same sorted
matches. -/
theorem C4_processHints_sorted_stable_aligned (ms : List VarMatch) (st : HintState) :
    ((processHints ms st).hints).Pairwise
        (fun a b => strLt (lowerData b) (lowerData a) = false)
    ∧ (∀ k : List Char, (sortMatches ms).filter (fun m => matchKey m == k)
        = ms.filter (fun m => matchKey m == k))
    ∧ (processHints ms st).hints.length = (processHints ms st).hintsHTML.length
    ∧ ∀ i : Nat,
        (∃ m, m ∈ ms ∧ (processHints ms st).hints.get? i = some m.name
            ∧ (processHints ms st).hintsHTML.get? i = some (hintHTML m))
        ∨ ((processHints ms st).hints.get? i = none
            ∧ (processHints ms st).hintsHTML.get? i = none) := by
  have h1 : (processHints ms st).hints = (sortMatches ms).map VarMatch.name := rfl
  have h2 : (processHints ms st).hintsHTML = (sortMatches ms).map hintHTML := rfl
  refine ⟨?_, fun k => sortMatches_filter k ms, ?_, ?_⟩
  · rw [h1, List.pairwise_map]
    exact sortMatches_pairwise ms
  · rw [h1, h2, List.length_map, List.length_map]
  · intro i
    cases hs : (sortMatches ms).get? i with
    | none =>
      right
      constructor
      · rw [h1, get?_map_eq, hs]
        rfl
      · rw [h2, get?_map_eq, hs]
        rfl
    | some m =>
      left
      refine ⟨m, (sortMatches_perm ms).mem_iff.mp (mem_of_get?_eq_some hs), ?_, ?_⟩
      · rw [h1, get?_map_eq, hs]
        rfl
      · rw [h2, get?_map_eq, hs]
        rfl

/-- Claim C5 (amended): the character set accepted by `this.chars` is
sigil, letters, digits, underscore and hyphen (the regex class `\w`
contains the underscore); for every single character outside that set
`validPosition` returns false and `getHints` returns null without any
extraction. -/
theorem C5_validPosition_charset_amended (c : Char) (st : HintState) (doc : List String)
    (cursor : Pos) :
    (charsTest (String.mk [c]) = true
        ↔ (c = '@' ∨ c.isAlpha = true ∨ c.isDigit = true ∨ c = '_' ∨ c = '-'))
    ∧ (charsTest (String.mk [c]) = false →
        validPosition st doc cursor (some (String.mk [c])) = none
        ∧ getHints st doc cursor (some (String.mk [c])) = (st, none)) := by
  constructor
  · have hc : charsTest (String.mk [c]) = (c == '@' || nameChar c) := by
      simp [charsTest, List.any_cons, List.any_nil]
    rw [hc]
    simp [nameChar, wordChar, Bool.or_eq_true, beq_iff_eq, or_assoc]
  · intro hfalse
    have hne : String.mk [c] ≠ "" := by
      intro he
      have hd : ([c] : List Char) = [] := congrArg String.data he
      exact List.cons_ne_nil c [] hd
    have htr : truthy (some (String.mk [c])) = true := bne_iff_ne.mpr hne
    have hguard : (truthy (some (String.mk [c]))
        && !charsTest ((some (String.mk [c])).getD "")) = true := by
      rw [htr]
      show (true && !charsTest (String.mk [c])) = true
      rw [hfalse]
      rfl
    have hvp : validPosition st doc cursor (some (String.mk [c])) = none := by
      rw [validPosition, if_pos hguard]
    exact ⟨hvp, by simp only [getHints, hvp]⟩

/-- Witness for C5 at the concrete invalid character `'!'`. -/
theorem C5_witness :
    validPosition ⟨⟨0, 0⟩, "", [], []⟩ [""] ⟨0, 0⟩ (some (String.mk ['!'])) = none
    ∧ getHints ⟨⟨0, 0⟩, "", [], []⟩ [""] ⟨0, 0⟩ (some (String.mk ['!']))
      = (⟨⟨0, 0⟩, "", [], []⟩, none) :=
  (C5_validPosition_charset_amended '!' ⟨⟨0, 0⟩, "", [], []⟩ [""] ⟨0, 0⟩).2 (by decide)

/-- Claim C5 is false as stated: the underscore, given in the claim as
an example of a rejected character, passes `this.chars` and
`validPosition` accepts it. -/
theorem C5_counterexample :
    charsTest "_" = true
    ∧ (validPosition ⟨⟨0, 0⟩, "", [], []⟩ ["@_"] ⟨0, 2⟩ (some "_")).isSome = true := by
  decide

/-- Claim C6 (amended): for every inserted character different from
the sigil `"@"` (or a missing/empty one), `hasHints` returns false,
but it is not side-effect free: it unconditionally records the cursor
position into `startPos` (and the editor); the remaining session
fields are unchanged. -/
theorem C6_hasHints_records_startPos_amended (st : HintState) (cursor : Pos)
    (implicitChar : Option String)
    (hns : ∀ s, implicitChar = some s → s ≠ "@") :
    hasHints st cursor implicitChar = ({ st with startPos := cursor }, false) := by
  cases implicitChar with
  | none => rfl
  | some s =>
    by_cases hs : s = ""
    · subst hs
      rfl
    · have h1 : truthy (some s) = true := bne_iff_ne.mpr hs
      have h2 : (s == "@") = false := beq_eq_false_iff_ne.mpr (hns s rfl)
      simp [hasHints, h1, h2]

/-- Witness for C6 at a concrete non-sigil character. -/
theorem C6_witness :
    hasHints ⟨⟨0, 0⟩, "", [], []⟩ ⟨1, 2⟩ (some "x")
      = (⟨⟨1, 2⟩, "", [], []⟩, false) :=
  C6_hasHints_records_startPos_amended ⟨⟨0, 0⟩, "", [], []⟩ ⟨1, 2⟩ (some "x")
    (by
      intro s hs
      injection hs with h
      subst h
      decide)

/-- Claim C6 is false as stated: `hasHints` on a non-sigil character
returns false but still mutates the engine state, overwriting
`startPos` with the current cursor position. -/
theorem C6_counterexample :
    (hasHints ⟨⟨0, 0⟩, "", [], []⟩ ⟨1, 2⟩ (some "x")).2 = false
    ∧ (hasHints ⟨⟨0, 0⟩, "", [], []⟩ ⟨1, 2⟩ (some "x")).1 ≠ ⟨⟨0, 0⟩, "", [], []⟩ := by
  decide

/-- Claim C7: when the cursor is on a different line than `startPos`,
or before its column on the same line, `validPosition` returns false
and `getHints` returns null; otherwise (same line, column at or after
`startPos.ch`, and an acceptable typed character) `writtenSinceStart`
is recomputed as exactly the document range from `startPos` to the
cursor and the query proceeds. -/
theorem C7_validPosition_cursor_span (st : HintState) (doc : List String) (cursor : Pos)
    (implicitChar : Option String) :
    ((cursor.line ≠ st.startPos.line ∨ cursor.ch < st.startPos.ch) →
        validPosition st doc cursor implicitChar = none
        ∧ getHints st doc cursor implicitChar = (st, none))
    ∧ ((cursor.line = st.startPos.line ∧ st.startPos.ch ≤ cursor.ch
          ∧ (truthy implicitChar = true → charsTest (implicitChar.getD "") = true)) →
        validPosition st doc cursor implicitChar
            = some { st with writtenSinceStart := getRange doc st.startPos cursor }
        ∧ (getHints st doc cursor implicitChar).2.isSome = true) := by
  constructor
  · intro hbad
    have hcond : ¬(cursor.line = st.startPos.line ∧ st.startPos.ch ≤ cursor.ch) := by
      intro hand
      rcases hbad with h | h
      · exact h hand.1
      · omega
    have hvp : validPosition st doc cursor implicitChar = none := by
      rw [validPosition]
      by_cases hguard :
          (truthy implicitChar && !charsTest (implicitChar.getD "")) = true
      · rw [if_pos hguard]
      · rw [if_neg hguard, if_neg hcond]
    exact ⟨hvp, by simp only [getHints, hvp]⟩
  · intro hgood
    obtain ⟨hline, hch, hchar⟩ := hgood
    have hguard :
        (truthy implicitChar && !charsTest (implicitChar.getD "")) = false := by
      cases ht : truthy implicitChar with
      | false => rfl
      | true =>
        rw [hchar ht]
        rfl
    have hvp : validPosition st doc cursor implicitChar
        = some { st with writtenSinceStart := getRange doc st.startPos cursor } := by
      rw [validPosition, if_neg (by rw [hguard]; exact Bool.false_ne_true),
        if_pos ⟨hline, hch⟩]
    refine ⟨hvp, ?_⟩
    simp only [getHints, hvp]
    rfl

/-- Witness for C7: a cursor on a previous line is rejected, and a
valid same-line position recomputes the range and proceeds. -/
theorem C7_witness :
    (validPosition ⟨⟨1, 0⟩, "", [], []⟩ [] ⟨0, 0⟩ none = none
      ∧ getHints ⟨⟨1, 0⟩, "", [], []⟩ [] ⟨0, 0⟩ none = (⟨⟨1, 0⟩, "", [], []⟩, none))
    ∧ (validPosition ⟨⟨0, 7⟩, "", [], []⟩ ["@a: 1;@"] ⟨0, 7⟩ (some "@")
        = some { (⟨⟨0, 7⟩, "", [], []⟩ : HintState) with
            writtenSinceStart := getRange ["@a: 1;@"] ⟨0, 7⟩ ⟨0, 7⟩ }
      ∧ (getHints ⟨⟨0, 7⟩, "", [], []⟩ ["@a: 1;@"] ⟨0, 7⟩ (some "@")).2.isSome
          = true) :=
  ⟨(C7_validPosition_cursor_span ⟨⟨1, 0⟩, "", [], []⟩ [] ⟨0, 0⟩ none).1
      (Or.inl (by decide)),
   (C7_validPosition_cursor_span ⟨⟨0, 7⟩, "", [], []⟩ ["@a: 1;@"] ⟨0, 7⟩ (some "@")).2
      ⟨rfl, by decide, by decide⟩⟩

/-- Claim C8: for every document text, `getAll` returns ALL
non-overlapping occurrences of the declaration pattern, in document
order, with no deduplication.  `AllOccurrences` (the claim-side
relation) forces each reported match to be a well-formed occurrence,
the leftmost one in the not-yet-consumed input, forces the scan to
continue in the remainder after each match, and forces the remainder
after the LAST reported match to contain no occurrence at all — so a
scan that dropped or merged any later occurrence (in particular a
duplicate declaration of the same name) cannot satisfy it.  In
addition: `OccursInOrder` soundness, non-emptiness whenever some
occurrence exists, and the concrete duplicate document
`"@x: 1;\n@x: 2;"` yields both entries in order. -/
theorem C8_getAll_occurrences :
    (∀ text : String, AllOccurrences text.data (getAll text))
    ∧ (∀ text : String, OccursInOrder text.data (getAll text))
    ∧ (∀ (text : String) (m : VarMatch) (ms : List VarMatch),
        OccursInOrder text.data (m :: ms) → getAll text ≠ [])
    ∧ getAll "@x: 1;\n@x: 2;" = [⟨"x", "1"⟩, ⟨"x", "2"⟩] := by
  refine ⟨?_, ?_, ?_, by decide⟩
  · intro text
    exact scanFuel_allOccurrences text.data.length text.data le_rfl
  · intro text
    exact scanFuel_sound text.data.length text.data le_rfl
  · intro text m ms hocc
    exact scan_ne_nil_of_occurs hocc

/-- Witness for C8: the single declaration in `"@a: 1;"` is an
occurrence, so the scan finds a match. -/
theorem C8_witness : getAll "@a: 1;" ≠ [] := by
  have hocc : OccursInOrder ("@a: 1;".data) [⟨"a", "1"⟩] := by
    have he : "@a: 1;".data = [] ++ matchShape ['a'] [] [' '] ['1'] ++ [';'] := by
      decide
    have hm : (⟨"a", "1"⟩ : VarMatch) = ⟨String.mk ['a'], String.mk ['1']⟩ := by
      decide
    rw [he, hm]
    exact OccursInOrder.cons [] ['a'] [] [' '] ['1'] [';'] []
      ⟨by decide, by decide⟩ (by decide) (by decide) ⟨by decide, by decide⟩
      (OccursInOrder.nil [';'])
  exact C8_getAll_occurrences.2.2.1 "@a: 1;" ⟨"a", "1"⟩ [] hocc

/-- Claim C9: for a display form present in `hintsHTML`, `insertHint`
issues a `replaceRange` over the span from `startPos` to the cursor
whose text is exactly the name of the corresponding candidate — the
declaration's value is never part of the inserted text. -/
theorem C9_insertHint_inserts_name (ms : List VarMatch) (st : HintState) (cursor : Pos)
    (h : String) (hmem : h ∈ (processHints ms st).hintsHTML) :
    ∃ m, m ∈ ms ∧ hintHTML m = h
      ∧ insertHint (processHints ms st) cursor h
        = ⟨some m.name, st.startPos, cursor⟩ := by
  have hhtml : (processHints ms st).hintsHTML = (sortMatches ms).map hintHTML := rfl
  have hhints : (processHints ms st).hints = (sortMatches ms).map VarMatch.name := rfl
  rw [hhtml] at hmem
  obtain ⟨i, hidx, hget⟩ := indexOfStr_mem hmem
  rw [get?_map_eq] at hget
  cases hs : (sortMatches ms).get? i with
  | none =>
    rw [hs] at hget
    cases hget
  | some m =>
    rw [hs] at hget
    have hml : hintHTML m = h := Option.some.inj hget
    refine ⟨m, (sortMatches_perm ms).mem_iff.mp (mem_of_get?_eq_some hs), hml, ?_⟩
    simp only [insertHint, hhtml, hidx, hhints]
    rw [get?_map_eq, hs]
    rfl

/-- Witness for C9 at a concrete one-candidate state. -/
theorem C9_witness :
    ∃ m, m ∈ [(⟨"bg-color", "blue"⟩ : VarMatch)]
      ∧ hintHTML m = hintHTML ⟨"bg-color", "blue"⟩
      ∧ insertHint (processHints [⟨"bg-color", "blue"⟩] ⟨⟨0, 0⟩, "", [], []⟩) ⟨0, 3⟩
          (hintHTML ⟨"bg-color", "blue"⟩)
        = ⟨some "bg-color", ⟨0, 0⟩, ⟨0, 3⟩⟩ := by
  have hx := C9_insertHint_inserts_name [⟨"bg-color", "blue"⟩] ⟨⟨0, 0⟩, "", [], []⟩
    ⟨0, 3⟩ (hintHTML ⟨"bg-color", "blue"⟩) (by decide)
  obtain ⟨m, hm1, hm2, hm3⟩ := hx
  have hmeq : m = ⟨"bg-color", "blue"⟩ := by
    simpa using hm1
  subst hmeq
  exact ⟨⟨"bg-color", "blue"⟩, by decide, rfl, hm3⟩

/-- Claim C10: with an empty written string the filter keeps every
match and preserves order — `filterHints` is the identity. -/
theorem C10_filterHints_empty_identity (ms : List VarMatch) :
    filterHints "" ms = ms := by
  apply List.filter_eq_self.mpr
  intro a _
  rfl

end LESSHint
